import Mathlib

/-!
Verification of the chunking / retrieval / chat-handler core of the
RAG web API servers (`src/infra/packages/webapi/server.js` and the
session-memory variant).  Strings are modelled as `List Char`; the loader's
mutable module state is modelled by explicit state passing.
-/

/-- The ASCII portion of the JavaScript regex class `\s`, which is what the
servers split on (`text.split(/\s+/)`): space, tab, LF, CR, VT, FF. -/
def isWs (c : Char) : Bool :=
  c = ' ' || c = '\t' || c = '\n' || c = '\r' || c = Char.ofNat 11 || c = Char.ofNat 12

/-- Worker for `splitWs`.  `st = some cur` means we are accumulating the
(reversed) characters `cur` of the current field; `st = none` means we are
inside a whitespace run whose field has already been emitted (the run acts as
one separator, as in the regex `/\s+/`).  A run touching the start or the end
of the string contributes an empty field, exactly as JavaScript
`String.prototype.split(/\s+/)` does. -/
def splitWsGo : List Char → Option (List Char) → List (List Char)
  | [], none => [[]]
  | [], some cur => [cur.reverse]
  | c :: cs, none =>
      if isWs c then splitWsGo cs none else splitWsGo cs (some [c])
  | c :: cs, some cur =>
      if isWs c then cur.reverse :: splitWsGo cs none
      else splitWsGo cs (some (c :: cur))

/-- Model of JavaScript `s.split(/\s+/)`. -/
def splitWs (s : List Char) : List (List Char) := splitWsGo s (some [])

/-- `CHUNK_SIZE` constant of both servers. -/
def CHUNK_SIZE : Nat := 2000

/-- The candidate string of the chunking loop:
`currentChunk + (currentChunk ? " " : "") + word`. -/
def chunkCandidate (cur word : List Char) : List Char :=
  if cur.isEmpty then word else cur ++ ' ' :: word

/-- One iteration of the chunking loop of `loadPDF` (server.js lines 71-83):
state is `(pdfChunks pushed so far, currentChunk)`. -/
def chunkStep (st : List (List Char) × List Char) (word : List Char) :
    List (List Char) × List Char :=
  if (chunkCandidate st.2 word).length ≤ CHUNK_SIZE then (st.1, chunkCandidate st.2 word)
  else if st.2.isEmpty then (st.1, word)
  else (st.1 ++ [st.2], word)

/-- The chunking loop of `loadPDF` plus the final flush of a non-empty
trailing chunk (server.js lines 67-87). -/
def buildChunks (words : List (List Char)) : List (List Char) :=
  if (words.foldl chunkStep ([], [])).2.isEmpty then (words.foldl chunkStep ([], [])).1
  else (words.foldl chunkStep ([], [])).1 ++ [(words.foldl chunkStep ([], [])).2]

/-- The chunk sequence `loadPDF` produces from an extracted text. -/
def loadChunksText (text : List Char) : List (List Char) :=
  buildChunks (splitWs text)

/-- Join a list of strings with single spaces (the claims' reconstruction of
the document from its chunks; also the shape of every chunk). -/
def joinSp : List (List Char) → List Char
  | [] => []
  | [w] => w
  | w :: ws => w ++ ' ' :: joinSp ws

/-- Worker for `normWs`; the flag records whether we are inside a whitespace
run whose single replacement space has already been emitted. -/
def normWsGo : List Char → Bool → List Char
  | [], _ => []
  | c :: cs, inRun =>
      if isWs c then
        if inRun then normWsGo cs true else ' ' :: normWsGo cs true
      else c :: normWsGo cs false

/-- The claims' notion of whitespace normalization: every maximal run of
whitespace characters is replaced by a single space. -/
def normWs (s : List Char) : List Char := normWsGo s false

/-! ## Relevance scorer (`retrieveRelevantContent`, server.js lines 103-137) -/

/-- JavaScript `String.prototype.toLowerCase`, character by character. -/
def toLowerL (s : List Char) : List Char := s.map Char.toLower

/-- The fixed punctuation set stripped from query terms
(the regex class in `term.replace(/[.,?!;:()"']/g, "")`). -/
def PUNCT : List Char :=
  ['.', ',', '?', '!', ';', ':', '(', ')', Char.ofNat 34, Char.ofNat 39]

/-- `term.replace(/[.,?!;:()"']/g, "")`: delete every punctuation character. -/
def stripPunct (t : List Char) : List Char := t.filter (fun c => !(PUNCT.contains c))

/-- Query pre-processing (server.js lines 110-113): lowercase, split on
whitespace, keep tokens of length > 2, then strip punctuation from each
surviving token (the length filter runs before the stripping). -/
def queryTerms (q : List Char) : List (List Char) :=
  ((splitWs (toLowerL q)).filter (fun t => 2 < t.length)).map stripPunct

/-- Worker for `countOcc` on a non-empty pattern; after a match the scan
resumes just past the matched text (global, non-overlapping, exactly how a
`g`-flagged regex advances `lastIndex`).  The fuel is the initial text length,
which bounds the number of steps (each step consumes at least one character),
so the `0` case is never reached from `countOcc`. -/
def countOccFuel (pat : List Char) : Nat → List Char → Nat
  | 0, _ => 0
  | _, [] => 0
  | fuel + 1, c :: cs =>
      if pat.isPrefixOf (c :: cs) then
        1 + countOccFuel pat fuel (cs.drop (pat.length - 1))
      else countOccFuel pat fuel cs

/-- Number of matches of `chunkLower.match(new RegExp(term, 'gi'))` for a
term without regex metacharacters, used literally.  The empty pattern (an
empty regex) matches once at every one of the `length + 1` positions, which is
what JavaScript returns for `"".match` semantics and the behaviour the scorer
inherits for punctuation-only tokens. -/
def countOcc (pat text : List Char) : Nat :=
  if pat.isEmpty then text.length + 1 else countOccFuel pat text.length text

/-- Score of one chunk (server.js lines 117-129): the chunk is lowercased and
every term's match count is added to the score. -/
def scoreChunk (terms : List (List Char)) (chunk : List Char) : Nat :=
  terms.foldl (fun s t => s + countOcc t (toLowerL chunk)) 0

/-- A `{ chunk, score }` pair (server.js line 128). -/
structure Scored where
  chunk : List Char
  score : Nat
deriving DecidableEq

/-- Insert into a list already sorted by score descending, after every element
of greater-or-equal score.  This is the stable sort
`sort((a, b) => b.score - a.score)` guaranteed by ES2019
`Array.prototype.sort`: equal-score elements keep their original order. -/
def insertDesc (x : Scored) : List Scored → List Scored
  | [] => [x]
  | y :: ys => if y.score < x.score then x :: y :: ys else y :: insertDesc x ys

/-- Stable sort by score descending (model of
`scoredChunks.sort((a, b) => b.score - a.score)`). -/
def sortDesc (l : List Scored) : List Scored :=
  l.foldl (fun acc x => insertDesc x acc) []

/-- The scoring pipeline of server.js lines 117-136 once the guards have
passed: score, keep strictly positive scores, stable-sort descending, take the
top 3, return the chunk texts. -/
def rankChunks (terms : List (List Char)) (chunks : List (List Char)) :
    List (List Char) :=
  (((sortDesc ((chunks.map (fun c => Scored.mk c (scoreChunk terms c))).filter
      (fun s => 0 < s.score))).take 3).map Scored.chunk)

/-- `retrieveRelevantContent(query)` (server.js lines 103-137), as a function
of the module-level `pdfChunks`. -/
def retrieveRelevantContent (pdfChunks : List (List Char)) (query : List Char) :
    List (List Char) :=
  if pdfChunks.isEmpty then []
  else
    let terms := queryTerms query
    if terms.isEmpty then [] else rankChunks terms pdfChunks

/-! ## Loader state (`loadPDF`, server.js lines 43-95) -/

/-- The external world a single `loadPDF` invocation sees: whether
`fs.access` succeeds, and the result of `readFile` + `pdfParse`
(`none` = either throws, `some t` = extracted text `t`). -/
structure LoadEnv where
  pdfExists : Bool
  parse : Option (List Char)
deriving DecidableEq

/-- The module-level mutable state `pdfText` / `pdfChunks`. -/
structure PdfState where
  pdfText : Option (List Char)
  pdfChunks : List (List Char)
deriving DecidableEq

/-- Sentinel returned when `fs.access` fails (server.js line 59). -/
def pdfNotFoundMsg : List Char := "PDF not found.".data

/-- Sentinel returned when reading or parsing throws (server.js line 93). -/
def pdfErrorMsg : List Char := "Error processing PDF.".data

/-- The un-cached path of `loadPDF` (server.js lines 54-94): check existence,
parse, store the text, append the chunks to the module-level `pdfChunks`. -/
def loadFresh (env : LoadEnv) (st : PdfState) : List Char × PdfState :=
  if !env.pdfExists then (pdfNotFoundMsg, st)
  else
    match env.parse with
    | none => (pdfErrorMsg, st)
    | some text =>
        (text, ⟨some text, st.pdfChunks ++ loadChunksText text⟩)

/-- `loadPDF()` (server.js lines 51-95).  The cache check is
`if (pdfText) return pdfText;`, JavaScript truthiness: a cached *empty*
string does not count as cached and falls through to a fresh load. -/
def loadPDF (env : LoadEnv) (st : PdfState) : List Char × PdfState :=
  match st.pdfText with
  | some t => if t.isEmpty then loadFresh env st else (t, st)
  | none => loadFresh env st

/-! ## Chat handler of the session-memory server (`src/unnamed/part_000`) -/

/-- Message roles. -/
inductive Role
  | system
  | user
  | assistant
deriving DecidableEq

/-- One message of a conversation (role + content). -/
structure Turn where
  role : Role
  content : List Char
deriving DecidableEq

/-- Fallback reply of the error response (part_000 line 264). -/
def fallbackReply : List Char := "Sorry, I encountered an error. Please try again.".data

/-- Label prefixed to a Tavily snippet pushed into `sources`
(part_000 line 221). -/
def tavilyLabel : List Char := "(From Tavily Search)\n".data

/-- System prompt when RAG found sources (part_000 lines 230-234). -/
def ragSystemContent (sources : List (List Char)) : List Char :=
  ("You are a helpful assistant for Contoso Electronics. You must ONLY use the information provided below to answer. If the information is not sufficient, state that you cannot answer based on the provided data.\n\n--- EMPLOYEE HANDBOOK EXCERPTS ---\n".data)
    ++ List.intercalate "\n\n".data sources
    ++ "\n--- END OF EXCERPTS ---".data

/-- System prompt when RAG found nothing (part_000 line 235). -/
def noSourcesSystemContent : List Char :=
  "You are a helpful assistant for Contoso Electronics. The provided excerpts do not contain relevant information for this question. Reply politely: \"I'm sorry, I don't know. The employee handbook and available search results do not contain information about that.\"".data

/-- System prompt when RAG is disabled (part_000 line 240). -/
def plainSystemContent : List Char :=
  "You are a helpful and knowledgeable assistant. Answer the user's questions concisely and informatively.".data

/-- The `sources` array assembled by the handler (part_000 lines 209-223):
retrieved chunks, plus the labelled Tavily snippet when one came back
(`queryTavily` already converts failure or an empty answer to `null`). -/
def chatSources (pdfChunks : List (List Char)) (tavily : Option (List Char))
    (useRAG : Bool) (userMessage : List Char) : List (List Char) :=
  if useRAG then
    match tavily with
    | some snip => retrieveRelevantContent pdfChunks userMessage ++ [tavilyLabel ++ snip]
    | none => retrieveRelevantContent pdfChunks userMessage
  else []

/-- The system message (part_000 lines 226-241). -/
def chatSystemMessage (useRAG : Bool) (sources : List (List Char)) : Turn :=
  if useRAG then
    if sources.isEmpty then ⟨Role.system, noSourcesSystemContent⟩
    else ⟨Role.system, ragSystemContent sources⟩
  else ⟨Role.system, plainSystemContent⟩

/-- The message list handed to `chatModel.invoke` (part_000 lines 245-249):
`[systemMessage, ...chat_history, { role: "user", content: userMessage }]`. -/
def chatMessages (useRAG : Bool) (sources : List (List Char))
    (history : List Turn) (userMessage : List Char) : List Turn :=
  chatSystemMessage useRAG sources :: history ++ [⟨Role.user, userMessage⟩]

/-- What the handler sends back (`res.json` / `res.status(500).json`). -/
structure ChatResponse where
  status : Nat
  reply : List Char
  sources : List (List Char)
deriving DecidableEq

/-- The `/chat` handler of part_000 (lines 203-268), as a function of the
loaded chunks, the Tavily result, and the completion call `invoke`
(`none` = the call throws).  Returns the response and the session transcript
after the exchange: on success `memory.saveContext` appends the user turn and
the assistant turn; on failure nothing is appended. -/
def handleChat (pdfChunks : List (List Char)) (tavily : Option (List Char))
    (invoke : List Turn → Option (List Char)) (useRAG : Bool)
    (userMessage : List Char) (history : List Turn) : ChatResponse × List Turn :=
  let sources := chatSources pdfChunks tavily useRAG userMessage
  let messages := chatMessages useRAG sources history userMessage
  match invoke messages with
  | some content =>
      (⟨200, content, sources⟩,
        history ++ [⟨Role.user, userMessage⟩, ⟨Role.assistant, content⟩])
  | none => (⟨500, fallbackReply, []⟩, history)

/-! ## Load-failure classification of server.js's own `/chat` handler -/

/-- JavaScript `String.prototype.startsWith`. -/
def startsWithL (pre s : List Char) : Bool := pre.isPrefixOf s

/-- The handler's load-failure test (server.js line 150):
`pdfLoadResult.startsWith("Error") || pdfLoadResult.startsWith("PDF not found")`. -/
def loadFailedText (t : List Char) : Bool :=
  startsWithL "Error".data t || startsWithL "PDF not found".data t

/-- Degraded-mode system prompt (server.js line 154). -/
def degradedSystemContent : List Char :=
  "You are a helpful assistant. I apologize, but I could not access the employee handbook to retrieve information at this time.".data

/-- No-sources system prompt of server.js (line 174). -/
def serverNoInfoContent : List Char :=
  "You are a helpful assistant. No highly relevant information was found in the employee handbook for this specific question. Please answer generally or state you don't have enough information from the handbook.".data

/-- RAG system prompt of server.js (lines 163-168). -/
def serverRagSystemContent (sources : List (List Char)) : List Char :=
  ("You are a helpful assistant answering questions about the company based on its employee handbook.\nUse ONLY the following information from the handbook to answer the user's question.\nIf you can't find relevant information in the provided context, state that clearly and politely, without making up information.\n--- EMPLOYEE HANDBOOK EXCERPTS ---\n".data)
    ++ List.intercalate "\n\n".data sources
    ++ "\n--- END OF EXCERPTS ---".data

/-- The RAG branch of server.js's `/chat` handler (lines 148-177): classify
the load result; on failure use the degraded prompt and no sources, otherwise
retrieve and pick the prompt.  Returns the system message and `sources`. -/
def serverChatSetup (loadResult : List Char) (chunks : List (List Char))
    (userMessage : List Char) : Turn × List (List Char) :=
  if loadFailedText loadResult then (⟨Role.system, degradedSystemContent⟩, [])
  else
    let sources := retrieveRelevantContent chunks userMessage
    if sources.isEmpty then (⟨Role.system, serverNoInfoContent⟩, sources)
    else (⟨Role.system, serverRagSystemContent sources⟩, sources)

/-! ## Sanity checks on concrete inputs -/

example : splitWs " a".data = [[], ['a']] := by decide
example : splitWs "a ".data = [['a'], []] := by decide
example : splitWs "a  b".data = [['a'], ['b']] := by decide
example : splitWs "".data = [[]] := by decide
example : loadChunksText "a b".data = ["a b".data] := by decide
example : loadChunksText " a".data = [['a']] := by decide
example : normWs " a".data = " a".data := by decide
example : joinSp (loadChunksText " a".data) ≠ normWs " a".data := by decide
example : joinSp (loadChunksText "a ".data) = normWs "a ".data := by decide

example : queryTerms "What is the Vacation policy?".data =
    ["what".data, "the".data, "vacation".data, "policy".data] := by decide
example : queryTerms "a an is".data = [] := by decide
example : queryTerms "a..".data = [['a']] := by decide
example : queryTerms "...".data = [[]] := by decide
example : countOcc "cat".data "cat cat cat".data = 3 := by decide
example : countOcc [] "abc".data = 4 := by decide
example :
    retrieveRelevantContent ["cat cat cat".data, "cat".data, "dog".data] "cat".data =
      ["cat cat cat".data, "cat".data] := by decide
example :
    retrieveRelevantContent
      ["cat a".data, "cat b".data, "cat c".data, "cat d".data, "cat e".data]
      "cat".data =
      ["cat a".data, "cat b".data, "cat c".data] := by decide
example : retrieveRelevantContent [] "cat".data = [] := by decide
example :
    loadPDF ⟨true, some "hello world".data⟩ ⟨none, []⟩ =
      ("hello world".data, ⟨some "hello world".data, ["hello world".data]⟩) := by decide
example :
    loadPDF ⟨false, none⟩ ⟨none, []⟩ = (pdfNotFoundMsg, ⟨none, []⟩) := by decide

/-! ## C1: chunk size bound -/

/-- Every field produced by the whitespace split is free of whitespace
characters (given that the accumulated field is). -/
theorem splitWsGo_no_ws (s : List Char) :
    ∀ st : Option (List Char), (∀ cur, st = some cur → ∀ c ∈ cur, isWs c = false) →
      ∀ w ∈ splitWsGo s st, ∀ c ∈ w, isWs c = false := by
  induction s with
  | nil =>
      intro st hst w hw
      cases st with
      | none => simp [splitWsGo] at hw; simp [hw]
      | some cur =>
          simp [splitWsGo] at hw
          subst hw
          intro c hc
          exact hst cur rfl c (by simpa using hc)
  | cons a s ih =>
      intro st hst w hw
      cases st with
      | none =>
          by_cases ha : isWs a
          · rw [splitWsGo, if_pos ha] at hw
            exact ih none (by simp) w hw
          · rw [splitWsGo, if_neg ha] at hw
            refine ih (some [a]) ?_ w hw
            intro cur hc c hcc
            cases hc
            rw [List.mem_singleton] at hcc
            subst hcc
            simpa using ha
      | some cur =>
          by_cases ha : isWs a
          · rw [splitWsGo, if_pos ha] at hw
            rcases List.mem_cons.1 hw with h | h
            · subst h
              intro c hc
              exact hst cur rfl c (by simpa using hc)
            · exact ih none (by simp) w h
          · rw [splitWsGo, if_neg ha] at hw
            refine ih (some (a :: cur)) ?_ w hw
            intro cur' hc c hcc
            cases hc
            rcases List.mem_cons.1 hcc with h | h
            · subst h; simpa using ha
            · exact hst cur rfl c h

/-- Words of the whitespace split contain no whitespace. -/
theorem splitWs_no_ws (s : List Char) :
    ∀ w ∈ splitWs s, ∀ c ∈ w, isWs c = false :=
  splitWsGo_no_ws s (some []) (by simp)

/-- Invariant of the chunking loop: every pushed chunk, and the current
chunk, either fits the budget or is a single word of the input list. -/
theorem chunk_fold_bound (W : List (List Char)) (ws : List (List Char))
    (hws : ∀ w ∈ ws, w ∈ W) :
    ∀ st : List (List Char) × List Char,
      (∀ c ∈ st.1, c.length ≤ CHUNK_SIZE ∨ c ∈ W) →
      (st.2.length ≤ CHUNK_SIZE ∨ st.2 ∈ W) →
      (∀ c ∈ (ws.foldl chunkStep st).1, c.length ≤ CHUNK_SIZE ∨ c ∈ W) ∧
      ((ws.foldl chunkStep st).2.length ≤ CHUNK_SIZE ∨ (ws.foldl chunkStep st).2 ∈ W) := by
  induction ws with
  | nil => exact fun st h1 h2 => ⟨h1, h2⟩
  | cons w ws ih =>
      intro st h1 h2
      have hw : w ∈ W := hws w (List.mem_cons_self _ _)
      have hstep : (∀ c ∈ (chunkStep st w).1, c.length ≤ CHUNK_SIZE ∨ c ∈ W) ∧
          ((chunkStep st w).2.length ≤ CHUNK_SIZE ∨ (chunkStep st w).2 ∈ W) := by
        unfold chunkStep
        by_cases hc : (chunkCandidate st.2 w).length ≤ CHUNK_SIZE
        · rw [if_pos hc]
          exact ⟨h1, Or.inl hc⟩
        · rw [if_neg hc]
          by_cases he : st.2.isEmpty
          · rw [if_pos he]
            exact ⟨h1, Or.inr hw⟩
          · rw [if_neg he]
            refine ⟨?_, Or.inr hw⟩
            intro c hcm
            rcases List.mem_append.1 hcm with h | h
            · exact h1 c h
            · rw [List.mem_singleton] at h; subst h; exact h2
      rw [List.foldl_cons]
      exact ih (fun x hx => hws x (List.mem_cons_of_mem _ hx)) _ hstep.1 hstep.2

/-- C1: every chunk of the loader fits the 2000-character budget, except that
an over-budget chunk is a single whitespace-free word of the input text (a
word longer than the budget becomes its own oversized chunk, never split). -/
theorem chunk_size_bound (text : List Char) :
    ∀ c ∈ loadChunksText text, CHUNK_SIZE < c.length →
      c ∈ splitWs text ∧ ∀ ch ∈ c, isWs ch = false := by
  intro c hc hlen
  have hinv := chunk_fold_bound (splitWs text) (splitWs text) (fun w hw => hw)
    ([], []) (by simp) (Or.inl (by simp [CHUNK_SIZE]))
  have hmem : c ∈ splitWs text := by
    unfold loadChunksText buildChunks at hc
    by_cases he : ((splitWs text).foldl chunkStep ([], [])).2.isEmpty
    · rw [if_pos he] at hc
      rcases hinv.1 c hc with h | h
      · omega
      · exact h
    · rw [if_neg he] at hc
      rcases List.mem_append.1 hc with h | h
      · rcases hinv.1 c h with h' | h'
        · omega
        · exact h'
      · rw [List.mem_singleton] at h
        subst h
        rcases hinv.2 with h' | h'
        · omega
        · exact h'
  exact ⟨hmem, splitWs_no_ws text c hmem⟩

/-- If the text has no whitespace at all, the split is one single field. -/
theorem splitWsGo_all_nonws (s : List Char) :
    ∀ cur, (∀ c ∈ s, isWs c = false) → splitWsGo s (some cur) = [cur.reverse ++ s] := by
  induction s with
  | nil => intro cur _; simp [splitWsGo]
  | cons a s ih =>
      intro cur h
      have ha : isWs a = false := h a (List.mem_cons_self _ _)
      rw [splitWsGo, if_neg (by simp [ha])]
      rw [ih (a :: cur) (fun c hc => h c (List.mem_cons_of_mem _ hc))]
      simp

/-- A whitespace-free text splits into itself as the only word. -/
theorem splitWs_single (s : List Char) (h : ∀ c ∈ s, isWs c = false) :
    splitWs s = [s] := by
  unfold splitWs
  rw [splitWsGo_all_nonws s [] h]
  rfl

/-- With an empty current chunk, a step just adopts the word (whatever its
length: both branches of the loop leave `currentChunk = word`). -/
theorem chunkStep_empty_cur (X : List (List Char)) (w : List Char) :
    chunkStep (X, []) w = (X, w) := by
  unfold chunkStep chunkCandidate
  simp

/-- Witness for `chunk_size_bound`: a 2001-character word becomes its own
oversized chunk. -/
theorem chunk_size_bound_witness :
    List.replicate 2001 'a' ∈ splitWs (List.replicate 2001 'a') ∧
    ∀ ch ∈ List.replicate 2001 'a', isWs ch = false := by
  have hnw : ∀ c ∈ List.replicate 2001 'a', isWs c = false := by
    intro c hc
    rw [List.eq_of_mem_replicate hc]
    decide
  have hne : (List.replicate 2001 'a').isEmpty = false := by
    simp [List.isEmpty_iff]
  have hchunks : loadChunksText (List.replicate 2001 'a') = [List.replicate 2001 'a'] := by
    unfold loadChunksText buildChunks
    rw [splitWs_single _ hnw, List.foldl_cons, chunkStep_empty_cur, List.foldl_nil, hne]
    rfl
  have hlen : CHUNK_SIZE < (List.replicate 2001 'a').length := by
    simp only [List.length_replicate, CHUNK_SIZE]
    omega
  exact chunk_size_bound (List.replicate 2001 'a') (List.replicate 2001 'a')
    (hchunks ▸ List.mem_singleton.2 rfl) hlen

/-! ## C6: the scorer's empty-input safety -/

/-- C6: the scorer never raises: with an empty chunk sequence it returns the
empty sequence, and when every whitespace token of the query has length ≤ 2
(so no usable query term remains) it also returns the empty sequence. -/
theorem retrieve_empty_safety (chunks : List (List Char)) (q : List Char) :
    (chunks = [] → retrieveRelevantContent chunks q = []) ∧
    ((∀ tok ∈ splitWs (toLowerL q), tok.length ≤ 2) →
      retrieveRelevantContent chunks q = []) := by
  constructor
  · intro h; subst h; rfl
  · intro h
    have hq : queryTerms q = [] := by
      unfold queryTerms
      have hf : (splitWs (toLowerL q)).filter (fun t => decide (2 < t.length)) = [] := by
        rw [List.filter_eq_nil_iff]
        intro a ha
        have := h a ha
        simp only [decide_eq_true_eq]
        omega
      rw [hf]
      rfl
    by_cases hc : chunks.isEmpty <;> simp [retrieveRelevantContent, hq, hc]

/-- Witness for `retrieve_empty_safety`: no chunks, and a query of
stop-length tokens only. -/
theorem retrieve_empty_safety_witness :
    retrieveRelevantContent [] "vacation".data = [] ∧
    retrieveRelevantContent ["vacation days".data] "a an is".data = [] :=
  ⟨(retrieve_empty_safety [] "vacation".data).1 rfl,
   (retrieve_empty_safety ["vacation days".data] "a an is".data).2 (by decide)⟩

/-! ## C7: failure isolation of the chat handler -/

/-- C7: when the completion call fails, the response is the 500 fallback with
empty sources and the session transcript is unchanged. -/
theorem chat_failure_isolation (pdfChunks : List (List Char))
    (tavily : Option (List Char)) (invoke : List Turn → Option (List Char))
    (useRAG : Bool) (userMessage : List Char) (history : List Turn)
    (hfail : invoke (chatMessages useRAG
        (chatSources pdfChunks tavily useRAG userMessage) history userMessage) = none) :
    handleChat pdfChunks tavily invoke useRAG userMessage history =
      (⟨500, fallbackReply, []⟩, history) := by
  simp only [handleChat, hfail]

/-- Witness for `chat_failure_isolation`. -/
theorem chat_failure_isolation_witness :
    handleChat ["cat chunk".data] none (fun _ => none) true "cat".data
        [⟨Role.user, "hi".data⟩] =
      (⟨500, fallbackReply, []⟩, [⟨Role.user, "hi".data⟩]) :=
  chat_failure_isolation _ _ _ _ _ _ rfl

/-! ## C8: shape of the assembled prompt -/

/-- C8: the assembled message list starts with the (single) system message,
continues with the prior transcript in order, and ends with the new user
turn; provided the transcript holds no system turns (it never does: the
handler appends only user and assistant turns), the system message is
exactly one. -/
theorem chat_prompt_shape (useRAG : Bool) (sources : List (List Char))
    (history : List Turn) (userMessage : List Char)
    (hh : ∀ t ∈ history, t.role ≠ Role.system) :
    (chatMessages useRAG sources history userMessage).head? =
      some (chatSystemMessage useRAG sources) ∧
    (chatSystemMessage useRAG sources).role = Role.system ∧
    ((chatMessages useRAG sources history userMessage).filter
      (fun t => decide (t.role = Role.system))).length = 1 ∧
    (chatMessages useRAG sources history userMessage).drop 1 =
      history ++ [⟨Role.user, userMessage⟩] ∧
    (chatMessages useRAG sources history userMessage).getLast? =
      some ⟨Role.user, userMessage⟩ := by
  have hrole : (chatSystemMessage useRAG sources).role = Role.system := by
    by_cases h1 : useRAG <;> by_cases h2 : sources.isEmpty <;>
      simp [chatSystemMessage, h1, h2]
  have hhist : history.filter (fun t => decide (t.role = Role.system)) = [] := by
    rw [List.filter_eq_nil_iff]
    intro a ha
    simpa using hh a ha
  refine ⟨rfl, hrole, ?_, rfl, ?_⟩
  · simp [chatMessages, List.filter_append, hhist, hrole]
  · have hsplit : chatMessages useRAG sources history userMessage =
        (chatSystemMessage useRAG sources :: history) ++ [Turn.mk Role.user userMessage] := by
      simp [chatMessages]
    rw [hsplit, List.getLast?_concat]

/-- Witness for `chat_prompt_shape` on a two-turn transcript. -/
theorem chat_prompt_shape_witness :
    (chatMessages true ["cats".data]
        [⟨Role.user, "hi".data⟩, ⟨Role.assistant, "hello".data⟩] "bye".data).head? =
      some (chatSystemMessage true ["cats".data]) ∧
    (chatMessages true ["cats".data]
        [⟨Role.user, "hi".data⟩, ⟨Role.assistant, "hello".data⟩] "bye".data).getLast? =
      some ⟨Role.user, "bye".data⟩ :=
  ⟨(chat_prompt_shape true ["cats".data] _ "bye".data (by decide)).1,
   (chat_prompt_shape true ["cats".data] _ "bye".data (by decide)).2.2.2.2⟩

/-! ## C10: in-band loader failure and its classification -/

/-- C10: the loader never throws — it returns the cached text, the freshly
parsed text, or one of the two sentinel strings; both sentinels are
classified as failures by the handler's test, and any text starting with
"Error" — even genuine document text — is classified as a load failure and
served in degraded mode with no sources. -/
theorem loader_in_band_failure (env : LoadEnv) (st : PdfState) :
    ((loadPDF env st).1 = pdfNotFoundMsg ∨ (loadPDF env st).1 = pdfErrorMsg ∨
      st.pdfText = some (loadPDF env st).1 ∨ env.parse = some (loadPDF env st).1) ∧
    loadFailedText pdfNotFoundMsg = true ∧
    loadFailedText pdfErrorMsg = true ∧
    (∀ t chunks um, startsWithL "Error".data t = true →
      serverChatSetup t chunks um = (⟨Role.system, degradedSystemContent⟩, [])) := by
  refine ⟨?_, by decide, by decide, ?_⟩
  · rcases st with ⟨pt, pc⟩
    cases pt with
    | none =>
        by_cases he : env.pdfExists <;> cases hp : env.parse <;>
          simp [loadPDF, loadFresh, he, hp]
    | some u =>
        by_cases hu : u.isEmpty
        · by_cases he : env.pdfExists <;> cases hp : env.parse <;>
            simp [loadPDF, loadFresh, he, hp, hu]
        · simp [loadPDF, hu]
  · intro t chunks um h
    have hft : loadFailedText t = true := by
      unfold loadFailedText
      rw [h]
      rfl
    simp [serverChatSetup, hft]

/-- Witness for `loader_in_band_failure`: a handbook whose genuine first words
are "Error codes ..." is classified as a failed load. -/
theorem loader_in_band_failure_witness :
    serverChatSetup "Error codes are listed in the appendix.".data
        ["Error codes are listed in the appendix.".data] "vacation".data =
      (⟨Role.system, degradedSystemContent⟩, []) :=
  (loader_in_band_failure ⟨true, some "Error codes are listed in the appendix.".data⟩
      ⟨none, []⟩).2.2.2 _ _ _ (by decide)

/-! ## C2: chunk reconstruction (corrected) -/

/-- The whitespace split always produces at least one field. -/
theorem splitWsGo_ne_nil (s : List Char) :
    ∀ st : Option (List Char), splitWsGo s st ≠ [] := by
  induction s with
  | nil => intro st; cases st <;> simp [splitWsGo]
  | cons c cs ih =>
      intro st
      cases st with
      | none =>
          by_cases hc : isWs c
          · rw [splitWsGo, if_pos hc]; exact ih none
          · rw [splitWsGo, if_neg hc]; exact ih (some [c])
      | some cur =>
          by_cases hc : isWs c
          · rw [splitWsGo, if_pos hc]; simp
          · rw [splitWsGo, if_neg hc]; exact ih (some (c :: cur))

/-- `joinSp` over a cons with a non-empty tail. -/
theorem joinSp_cons (w : List Char) (ws : List (List Char)) (h : ws ≠ []) :
    joinSp (w :: ws) = w ++ ' ' :: joinSp ws := by
  cases ws with
  | nil => exact absurd rfl h
  | cons x xs => rfl

/-- Joining the fields of the whitespace split with single spaces is exactly
whitespace normalization (runs at the edges become the edge empty fields). -/
theorem joinSp_splitWsGo (s : List Char) :
    (∀ cur, joinSp (splitWsGo s (some cur)) = cur.reverse ++ normWsGo s false) ∧
    joinSp (splitWsGo s none) = normWsGo s true := by
  induction s with
  | nil =>
      constructor
      · intro cur; simp [splitWsGo, joinSp, normWsGo]
      · simp [splitWsGo, joinSp, normWsGo]
  | cons c cs ih =>
      constructor
      · intro cur
        by_cases hc : isWs c
        · rw [splitWsGo, if_pos hc,
            joinSp_cons _ _ (splitWsGo_ne_nil cs none), ih.2]
          rw [normWsGo, if_pos hc]
          simp
        · rw [splitWsGo, if_neg hc, ih.1 (c :: cur)]
          rw [normWsGo, if_neg hc]
          simp
      · by_cases hc : isWs c
        · rw [splitWsGo, if_pos hc, ih.2]
          rw [normWsGo, if_pos hc]
          simp
        · rw [splitWsGo, if_neg hc, ih.1 [c]]
          rw [normWsGo, if_neg hc]
          simp

/-- Single-space joining of the split reconstructs the normalized text. -/
theorem normWs_eq_joinSp (s : List Char) : joinSp (splitWs s) = normWs s := by
  have := (joinSp_splitWsGo s).1 []
  simpa [splitWs, normWs] using this

/-- When the text ends with a non-whitespace character, every field of the
split is non-empty — provided the state entitles the first field to a
character (`cur` non-empty, or the next character is not whitespace). -/
theorem splitWsGo_fields_ne_nil : ∀ s : List Char,
    (∀ x, s.getLast? = some x → isWs x = false) →
    ((∀ cur, (cur ≠ [] ∨ ∃ x, s.head? = some x ∧ isWs x = false) →
      ∀ w ∈ splitWsGo s (some cur), w ≠ []) ∧
    (s ≠ [] → ∀ w ∈ splitWsGo s none, w ≠ [])) := by
  intro s
  induction s with
  | nil =>
      intro _
      constructor
      · intro cur hcur w hw
        simp [splitWsGo] at hw
        subst hw
        rcases hcur with hcur | ⟨x, hx, _⟩
        · simpa using hcur
        · simp at hx
      · intro h
        exact absurd rfl h
  | cons c cs ih =>
      intro hlast
      have hlast_cs : ∀ x, cs.getLast? = some x → isWs x = false := by
        intro x hx
        apply hlast
        cases cs with
        | nil => simp at hx
        | cons d ds => rw [List.getLast?_cons_cons]; exact hx
      obtain ⟨ihsome, ihnone⟩ := ih hlast_cs
      by_cases hc : isWs c
      · have hcs : cs ≠ [] := by
          intro h
          subst h
          have hlc := hlast c rfl
          rw [hc] at hlc
          exact absurd hlc (by decide)
        constructor
        · intro cur hcur w hw
          rw [splitWsGo, if_pos hc] at hw
          rcases List.mem_cons.1 hw with rfl | hw
          · have hcne : cur ≠ [] := by
              rcases hcur with h | ⟨x, hx, hxw⟩
              · exact h
              · have hxc : x = c := by
                  simp only [List.head?_cons, Option.some_inj] at hx
                  exact hx.symm
                rw [hxc, hc] at hxw
                exact absurd hxw (by decide)
            simpa [List.reverse_eq_nil_iff] using hcne
          · exact ihnone hcs w hw
        · intro _ w hw
          rw [splitWsGo, if_pos hc] at hw
          exact ihnone hcs w hw
      · constructor
        · intro cur _ w hw
          rw [splitWsGo, if_neg hc] at hw
          exact ihsome (c :: cur) (Or.inl (by simp)) w hw
        · intro _ w hw
          rw [splitWsGo, if_neg hc] at hw
          exact ihsome [c] (Or.inl (by simp)) w hw

/-- For a non-empty text that neither starts nor ends with whitespace,
every word of the split is non-empty. -/
theorem splitWs_fields_ne_nil (text : List Char) (htext : text ≠ [])
    (hh : ∀ x, text.head? = some x → isWs x = false)
    (hl : ∀ x, text.getLast? = some x → isWs x = false) :
    ∀ w ∈ splitWs text, w ≠ [] := by
  apply (splitWsGo_fields_ne_nil text hl).1 []
  right
  cases text with
  | nil => exact absurd rfl htext
  | cons y ys => exact ⟨y, rfl, hh y rfl⟩

/-- A single-space join of non-empty words is non-empty. -/
theorem joinSp_ne_nil (g : List (List Char)) (hg : g ≠ [])
    (hw : ∀ w ∈ g, w ≠ []) : joinSp g ≠ [] := by
  cases g with
  | nil => exact absurd rfl hg
  | cons w ws =>
      cases ws with
      | nil => simpa [joinSp] using hw w (by simp)
      | cons x xs =>
          rw [joinSp_cons _ _ (by simp)]
          have := hw w (by simp)
          simp [this]

/-- Appending one more word to a non-empty group extends the join with a
single space and the word. -/
theorem joinSp_append_singleton (g : List (List Char)) (w : List Char)
    (hg : g ≠ []) : joinSp (g ++ [w]) = joinSp g ++ ' ' :: w := by
  induction g with
  | nil => exact absurd rfl hg
  | cons x xs ih =>
      cases xs with
      | nil => simp [joinSp]
      | cons y ys =>
          rw [List.cons_append, joinSp_cons _ _ (by simp),
            joinSp_cons _ _ (by simp), ih (by simp)]
          simp

/-- The concatenation of non-empty groups headed by one is non-empty. -/
theorem flatten_ne_nil (gs : List (List (List Char))) (hgs : gs ≠ [])
    (h : ∀ x ∈ gs, x ≠ []) : gs.flatten ≠ [] := by
  cases gs with
  | nil => exact absurd rfl hgs
  | cons g gl =>
      have hg := h g (by simp)
      rw [List.flatten_cons]
      simp [hg]

/-- `joinSp` distributes over the append of two non-empty lists. -/
theorem joinSp_append (a b : List (List Char)) (ha : a ≠ []) (hb : b ≠ []) :
    joinSp (a ++ b) = joinSp a ++ ' ' :: joinSp b := by
  induction a with
  | nil => exact absurd rfl ha
  | cons x xs ih =>
      cases xs with
      | nil =>
          rw [List.singleton_append, joinSp_cons _ _ hb]
          rfl
      | cons y ys =>
          rw [List.cons_append, joinSp_cons _ _ (by simp),
            joinSp_cons _ _ (by simp), ih (by simp)]
          simp

/-- Joining the per-group joins of a partition equals joining all the words:
chunk boundaries that respect group boundaries reconstruct the text. -/
theorem joinSp_map_flatten (gs : List (List (List Char)))
    (h : ∀ x ∈ gs, x ≠ []) : joinSp (gs.map joinSp) = joinSp gs.flatten := by
  induction gs with
  | nil => rfl
  | cons g gl ih =>
      cases gl with
      | nil => simp [joinSp]
      | cons g' gl' =>
          rw [List.map_cons, joinSp_cons _ _ (by simp), List.flatten_cons,
            joinSp_append g _ (h g (by simp))
              (flatten_ne_nil _ (by simp) (fun x hx => h x (by simp [hx]))),
            ih (fun x hx => h x (by simp [hx]))]

/-- Invariant of the chunking loop on non-empty words: the pushed chunks are
the single-space joins of a partition of the consumed words into non-empty
consecutive groups, with the current chunk the join of the final open
group. -/
theorem chunk_fold_partition : ∀ ws : List (List Char), (∀ w ∈ ws, w ≠ []) →
    ∀ (gs : List (List (List Char))) (g : List (List Char)),
      (∀ x ∈ gs, x ≠ []) → (∀ w ∈ g, w ≠ []) →
      ∃ (gs' : List (List (List Char))) (g' : List (List Char)),
        ws.foldl chunkStep (gs.map joinSp, joinSp g) =
          (gs'.map joinSp, joinSp g') ∧
        gs'.flatten ++ g' = gs.flatten ++ g ++ ws ∧
        (∀ x ∈ gs', x ≠ []) ∧ (∀ w ∈ g', w ≠ []) := by
  intro ws
  induction ws with
  | nil =>
      intro _ gs g hgs hg
      exact ⟨gs, g, by simp, by simp, hgs, hg⟩
  | cons w ws ih =>
      intro hws gs g hgs hg
      have hw : w ≠ [] := hws w (by simp)
      have hws' : ∀ x ∈ ws, x ≠ [] := fun x hx => hws x (by simp [hx])
      rw [List.foldl_cons]
      by_cases hge : g = []
      · subst hge
        have hstep : chunkStep (gs.map joinSp, joinSp []) w =
            (gs.map joinSp, joinSp [w]) := chunkStep_empty_cur _ _
        rw [hstep]
        obtain ⟨gs', g', heq, hflat, h1, h2⟩ :=
          ih hws' gs [w] hgs (by simpa using hw)
        refine ⟨gs', g', heq, ?_, h1, h2⟩
        rw [hflat]
        simp
      · have hjg : joinSp g ≠ [] := joinSp_ne_nil g hge hg
        have hje : (joinSp g).isEmpty = false := by
          simpa [List.isEmpty_iff] using hjg
        have hcand : chunkCandidate (joinSp g) w = joinSp (g ++ [w]) := by
          unfold chunkCandidate
          rw [hje, joinSp_append_singleton g w hge]
          simp
        by_cases hlen : (joinSp (g ++ [w])).length ≤ CHUNK_SIZE
        · have hstep : chunkStep (gs.map joinSp, joinSp g) w =
              (gs.map joinSp, joinSp (g ++ [w])) := by
            unfold chunkStep
            rw [hcand, if_pos hlen]
          rw [hstep]
          obtain ⟨gs', g', heq, hflat, h1, h2⟩ := ih hws' gs (g ++ [w]) hgs (by
            intro x hx
            rcases List.mem_append.1 hx with hx | hx
            · exact hg x hx
            · rw [List.mem_singleton] at hx
              subst hx
              exact hw)
          refine ⟨gs', g', heq, ?_, h1, h2⟩
          rw [hflat]
          simp
        · have hstep : chunkStep (gs.map joinSp, joinSp g) w =
              ((gs ++ [g]).map joinSp, joinSp [w]) := by
            unfold chunkStep
            rw [hcand, if_neg hlen, hje]
            simp [List.map_append, joinSp]
          rw [hstep]
          obtain ⟨gs', g', heq, hflat, h1, h2⟩ := ih hws' (gs ++ [g]) [w] (by
            intro x hx
            rcases List.mem_append.1 hx with hx | hx
            · exact hgs x hx
            · rw [List.mem_singleton] at hx
              subst hx
              exact hge) (by simpa using hw)
          refine ⟨gs', g', heq, ?_, h1, h2⟩
          rw [hflat]
          simp

/-- The chunks built from non-empty words are the joins of a partition of the
words into non-empty consecutive groups. -/
theorem buildChunks_partition (ws : List (List Char))
    (hws : ∀ w ∈ ws, w ≠ []) :
    ∃ gs : List (List (List Char)), gs.flatten = ws ∧ (∀ x ∈ gs, x ≠ []) ∧
      buildChunks ws = gs.map joinSp := by
  obtain ⟨gs', g', heq, hflat, h1, h2⟩ :=
    chunk_fold_partition ws hws [] [] (by simp) (by simp)
  have heq' : ws.foldl chunkStep ([], []) = (gs'.map joinSp, joinSp g') := by
    simpa using heq
  unfold buildChunks
  rw [heq']
  by_cases hge : g' = []
  · subst hge
    refine ⟨gs', by simpa using hflat, h1, ?_⟩
    simp [joinSp]
  · have hjg : joinSp g' ≠ [] := joinSp_ne_nil g' hge h2
    have hje : (joinSp g').isEmpty = false := by
      simpa [List.isEmpty_iff] using hjg
    refine ⟨gs' ++ [g'], ?_, ?_, ?_⟩
    · rw [List.flatten_append]
      simpa using hflat
    · intro x hx
      rcases List.mem_append.1 hx with hx | hx
      · exact h1 x hx
      · rw [List.mem_singleton] at hx
        subst hx
        exact hge
    · rw [hje]
      simp

/-- C2 counterexample: for the text " a" (leading whitespace), the loader's
chunks join to "a", while the text with every whitespace run replaced by a
single space is " a" — the leading separator is lost, so the claimed
reconstruction fails for that input. -/
theorem chunk_reconstruction_counterexample :
    joinSp (loadChunksText " a".data) ≠ normWs " a".data := by decide

/-- C2 (amended): for a text that neither starts nor ends with a whitespace
character, the chunks are the single-space joins of a partition of the
(non-empty) words into consecutive groups — no chunk boundary falls inside a
word — and joining all chunks with single spaces reconstructs the
whitespace-normalized text. -/
theorem chunk_reconstruction_amended (text : List Char)
    (hh : ∀ c, text.head? = some c → isWs c = false)
    (hl : ∀ c, text.getLast? = some c → isWs c = false) :
    ∃ gs : List (List (List Char)),
      gs.flatten = (splitWs text).filter (fun w => !w.isEmpty) ∧
      (∀ g ∈ gs, g ≠ []) ∧
      loadChunksText text = gs.map joinSp ∧
      joinSp (loadChunksText text) = normWs text := by
  by_cases htext : text = []
  · subst htext
    refine ⟨[], by decide, by simp, by decide, by decide⟩
  · have hfields : ∀ w ∈ splitWs text, w ≠ [] :=
      splitWs_fields_ne_nil text htext hh hl
    have hfilter : (splitWs text).filter (fun w => !w.isEmpty) = splitWs text :=
      List.filter_eq_self.2 (fun w hw => by
        simpa [List.isEmpty_iff] using hfields w hw)
    obtain ⟨gs, hflat, hggs, hchunks⟩ := buildChunks_partition (splitWs text) hfields
    refine ⟨gs, by rw [hfilter]; exact hflat, hggs, hchunks, ?_⟩
    show joinSp (buildChunks (splitWs text)) = normWs text
    rw [hchunks, joinSp_map_flatten gs hggs, hflat, normWs_eq_joinSp]

/-- Witness for `chunk_reconstruction_amended` on "one two  three". -/
theorem chunk_reconstruction_witness :
    ∃ gs : List (List (List Char)),
      gs.flatten = (splitWs "one two  three".data).filter (fun w => !w.isEmpty) ∧
      (∀ g ∈ gs, g ≠ []) ∧
      loadChunksText "one two  three".data = gs.map joinSp ∧
      joinSp (loadChunksText "one two  three".data) = normWs "one two  three".data :=
  chunk_reconstruction_amended "one two  three".data (by decide) (by decide)

/-! ## C3: the scorer's filter, stable sort and top-3 cap -/

/-- Membership in a stable insertion. -/
theorem mem_insertDesc (x a : Scored) (l : List Scored) :
    a ∈ insertDesc x l ↔ a = x ∨ a ∈ l := by
  induction l with
  | nil => simp [insertDesc]
  | cons y ys ih =>
      unfold insertDesc
      by_cases h : y.score < x.score
      · rw [if_pos h]
        simp [List.mem_cons]
      · rw [if_neg h]
        simp [List.mem_cons, ih]
        tauto

/-- Stable insertion preserves descending sortedness. -/
theorem sorted_insertDesc (x : Scored) (l : List Scored)
    (h : List.Pairwise (fun a b => b.score ≤ a.score) l) :
    List.Pairwise (fun a b => b.score ≤ a.score) (insertDesc x l) := by
  induction l with
  | nil => simp [insertDesc]
  | cons y ys ih =>
      rw [List.pairwise_cons] at h
      unfold insertDesc
      by_cases hxy : y.score < x.score
      · rw [if_pos hxy, List.pairwise_cons]
        constructor
        · intro b hb
          rcases List.mem_cons.1 hb with rfl | hb
          · omega
          · have := h.1 b hb
            omega
        · exact List.pairwise_cons.2 h
      · rw [if_neg hxy, List.pairwise_cons]
        refine ⟨?_, ih h.2⟩
        intro b hb
        rcases (mem_insertDesc x b ys).1 hb with rfl | hb
        · omega
        · exact h.1 b hb

/-- Stability of the insertion: inside a sorted list, the newly inserted
element lands after every element of its score class. -/
theorem filter_insertDesc (x : Scored) (v : Nat) (l : List Scored)
    (h : List.Pairwise (fun a b => b.score ≤ a.score) l) :
    (insertDesc x l).filter (fun s => decide (s.score = v)) =
      l.filter (fun s => decide (s.score = v)) ++
        (if x.score = v then [x] else []) := by
  induction l with
  | nil =>
      by_cases hxv : x.score = v <;> simp [insertDesc, List.filter, hxv]
  | cons y ys ih =>
      rw [List.pairwise_cons] at h
      unfold insertDesc
      by_cases hxy : y.score < x.score
      · rw [if_pos hxy]
        by_cases hxv : x.score = v
        · have hnil : (y :: ys).filter (fun s => decide (s.score = v)) = [] := by
            rw [List.filter_eq_nil_iff]
            intro a ha
            rcases List.mem_cons.1 ha with rfl | ha
            · simp only [decide_eq_true_eq]
              omega
            · have := h.1 a ha
              simp only [decide_eq_true_eq]
              omega
          rw [List.filter_cons, hnil]
          simp [hxv]
        · rw [List.filter_cons]
          simp [hxv]
      · rw [if_neg hxy, List.filter_cons, List.filter_cons, ih h.2]
        by_cases hyv : y.score = v <;> simp [hyv]

/-- The sorted accumulator invariant of `sortDesc`'s fold: sortedness plus
score-class preservation (stability). -/
theorem sortDesc_invariant (l : List Scored) :
    ∀ acc, List.Pairwise (fun a b => b.score ≤ a.score) acc →
      List.Pairwise (fun a b => b.score ≤ a.score)
        (l.foldl (fun a x => insertDesc x a) acc) ∧
      ∀ v, (l.foldl (fun a x => insertDesc x a) acc).filter
          (fun s => decide (s.score = v)) =
        acc.filter (fun s => decide (s.score = v)) ++
          l.filter (fun s => decide (s.score = v)) := by
  induction l with
  | nil =>
      intro acc h
      simpa using h
  | cons x xs ih =>
      intro acc h
      rw [List.foldl_cons]
      obtain ⟨hs, hf⟩ := ih (insertDesc x acc) (sorted_insertDesc x acc h)
      refine ⟨hs, ?_⟩
      intro v
      rw [hf v, filter_insertDesc x v acc h, List.filter_cons]
      by_cases hxv : x.score = v <;> simp [hxv]

/-- `sortDesc` sorts by score, descending. -/
theorem sortDesc_sorted (l : List Scored) :
    List.Pairwise (fun a b => b.score ≤ a.score) (sortDesc l) :=
  (sortDesc_invariant l [] (by simp)).1

/-- `sortDesc` is stable: it keeps every score class in input order. -/
theorem sortDesc_filter (l : List Scored) (v : Nat) :
    (sortDesc l).filter (fun s => decide (s.score = v)) =
      l.filter (fun s => decide (s.score = v)) := by
  simpa using (sortDesc_invariant l [] (by simp)).2 v

/-- Membership through the fold of insertions. -/
theorem mem_foldl_insertDesc (l : List Scored) :
    ∀ acc a, a ∈ l.foldl (fun ac x => insertDesc x ac) acc ↔ a ∈ acc ∨ a ∈ l := by
  induction l with
  | nil => simp
  | cons x xs ih =>
      intro acc a
      rw [List.foldl_cons, ih, mem_insertDesc]
      simp [List.mem_cons]
      tauto

/-- `sortDesc` permutes (at least: has the same members as) its input. -/
theorem mem_sortDesc (l : List Scored) (a : Scored) : a ∈ sortDesc l ↔ a ∈ l := by
  unfold sortDesc
  rw [mem_foldl_insertDesc]
  simp

/-- Insertion grows the length by one. -/
theorem length_insertDesc (x : Scored) (l : List Scored) :
    (insertDesc x l).length = l.length + 1 := by
  induction l with
  | nil => rfl
  | cons y ys ih =>
      unfold insertDesc
      by_cases h : y.score < x.score
      · rw [if_pos h]
        simp
      · rw [if_neg h]
        simp [ih]

/-- Length through the fold of insertions. -/
theorem length_foldl_insertDesc (l : List Scored) :
    ∀ acc, (l.foldl (fun ac x => insertDesc x ac) acc).length =
      acc.length + l.length := by
  induction l with
  | nil => simp
  | cons x xs ih =>
      intro acc
      rw [List.foldl_cons, ih, length_insertDesc, List.length_cons]
      omega

/-- `sortDesc` preserves length. -/
theorem length_sortDesc (l : List Scored) : (sortDesc l).length = l.length := by
  simpa using length_foldl_insertDesc l []

/-- Every element of the ranked pipeline is a scored input chunk. -/
theorem rankChunks_mem (terms : List (List Char)) (chunks : List (List Char)) :
    ∀ c ∈ rankChunks terms chunks, 0 < scoreChunk terms c ∧ c ∈ chunks := by
  intro c hc
  unfold rankChunks at hc
  rw [List.mem_map] at hc
  obtain ⟨x, hx, rfl⟩ := hc
  have hx' : x ∈ sortDesc ((chunks.map (fun c => Scored.mk c (scoreChunk terms c))).filter
      (fun s => decide (0 < s.score))) := List.mem_of_mem_take hx
  rw [mem_sortDesc, List.mem_filter] at hx'
  obtain ⟨hxm, hxs⟩ := hx'
  rw [List.mem_map] at hxm
  obtain ⟨c', hc', rfl⟩ := hxm
  exact ⟨by simpa using hxs, hc'⟩

/-- The ranked pipeline returns at most 3 chunks. -/
theorem rankChunks_length_le (terms : List (List Char)) (chunks : List (List Char)) :
    (rankChunks terms chunks).length ≤ 3 := by
  unfold rankChunks
  rw [List.length_map, List.length_take]
  omega

/-- Every scored element of the pipeline carries the score of its chunk. -/
theorem score_eq_of_mem_pipeline (terms : List (List Char))
    (chunks : List (List Char)) (x : Scored)
    (hx : x ∈ sortDesc ((chunks.map (fun c => Scored.mk c (scoreChunk terms c))).filter
      (fun s => decide (0 < s.score)))) :
    x.score = scoreChunk terms x.chunk := by
  rw [mem_sortDesc, List.mem_filter] at hx
  obtain ⟨hxm, _⟩ := hx
  rw [List.mem_map] at hxm
  obtain ⟨c', _, rfl⟩ := hxm
  rfl

/-- Scores are non-increasing along the ranked output. -/
theorem rankChunks_pairwise (terms : List (List Char)) (chunks : List (List Char)) :
    List.Pairwise (fun a b => scoreChunk terms b ≤ scoreChunk terms a)
      (rankChunks terms chunks) := by
  unfold rankChunks
  rw [List.pairwise_map]
  have hsorted : List.Pairwise (fun a b : Scored => b.score ≤ a.score)
      (sortDesc ((chunks.map (fun c => Scored.mk c (scoreChunk terms c))).filter
        (fun s => decide (0 < s.score)))) := sortDesc_sorted _
  have htake := hsorted.sublist (List.take_sublist 3 _)
  refine htake.imp_of_mem ?_
  intro a b ha hb hab
  have ha' := score_eq_of_mem_pipeline terms chunks a (List.mem_of_mem_take ha)
  have hb' := score_eq_of_mem_pipeline terms chunks b (List.mem_of_mem_take hb)
  rw [ha', hb'] at hab
  exact hab

/-- Stability with the top-3 cut: for a positive score value `v`, the output
chunks scoring `v` are a prefix of the input chunks scoring `v`. -/
theorem rankChunks_stable (terms : List (List Char)) (chunks : List (List Char))
    (v : Nat) (hv : 0 < v) :
    List.IsPrefix
      ((rankChunks terms chunks).filter (fun c => decide (scoreChunk terms c = v)))
      (chunks.filter (fun c => decide (scoreChunk terms c = v))) := by
  unfold rankChunks
  set s := sortDesc ((chunks.map (fun c => Scored.mk c (scoreChunk terms c))).filter
      (fun x => decide (0 < x.score))) with hs
  rw [List.filter_map]
  have hcongr : (s.take 3).filter ((fun c => decide (scoreChunk terms c = v)) ∘ Scored.chunk) =
      (s.take 3).filter (fun x => decide (x.score = v)) := by
    apply List.filter_congr
    intro a ha
    have := score_eq_of_mem_pipeline terms chunks a (List.mem_of_mem_take ha)
    simp [Function.comp, this]
  rw [hcongr]
  have hpre1 : List.IsPrefix ((s.take 3).filter (fun x => decide (x.score = v)))
      (s.filter (fun x => decide (x.score = v))) := by
    refine ⟨(s.drop 3).filter (fun x => decide (x.score = v)), ?_⟩
    rw [← List.filter_append, List.take_append_drop]
  have hfull : s.filter (fun x => decide (x.score = v)) =
      (chunks.filter (fun c => decide (scoreChunk terms c = v))).map
        (fun c => Scored.mk c (scoreChunk terms c)) := by
    rw [hs, sortDesc_filter, List.filter_filter]
    have hcongr2 : (chunks.map (fun c => Scored.mk c (scoreChunk terms c))).filter
        (fun a => decide (a.score = v) && decide (0 < a.score)) =
        (chunks.map (fun c => Scored.mk c (scoreChunk terms c))).filter
          (fun a => decide (a.score = v)) := by
      apply List.filter_congr
      intro a _
      by_cases hav : a.score = v
      · simp [hav]
        omega
      · simp [hav]
    rw [hcongr2, List.filter_map]
    rfl
  have hmapped := hpre1.map Scored.chunk
  rw [hfull, List.map_map] at hmapped
  have hid : (Scored.chunk ∘ fun c => Scored.mk c (scoreChunk terms c)) = id := rfl
  rw [hid, List.map_id] at hmapped
  exact hmapped

/-- C3: the scorer's output has at most 3 chunks; each returned chunk is an
input chunk of strictly positive score; scores are non-increasing along the
output; and, stably, for every positive score value the returned chunks of
that score form a prefix of the input chunks of that score in document
order. -/
theorem retrieve_top3_properties (chunks : List (List Char)) (q : List Char) :
    (retrieveRelevantContent chunks q).length ≤ 3 ∧
    (∀ c ∈ retrieveRelevantContent chunks q,
      0 < scoreChunk (queryTerms q) c ∧ c ∈ chunks) ∧
    List.Pairwise (fun a b => scoreChunk (queryTerms q) b ≤ scoreChunk (queryTerms q) a)
      (retrieveRelevantContent chunks q) ∧
    ∀ v, 0 < v → List.IsPrefix
      ((retrieveRelevantContent chunks q).filter
        (fun c => decide (scoreChunk (queryTerms q) c = v)))
      (chunks.filter (fun c => decide (scoreChunk (queryTerms q) c = v))) := by
  by_cases hce : chunks.isEmpty
  · have h0 : retrieveRelevantContent chunks q = [] := by
      unfold retrieveRelevantContent
      rw [if_pos hce]
    rw [h0]
    refine ⟨by simp, by simp, by simp, ?_⟩
    intro v _
    exact List.nil_prefix
  · by_cases hte : (queryTerms q).isEmpty
    · have h0 : retrieveRelevantContent chunks q = [] := by
        simp [retrieveRelevantContent, hce, hte]
      rw [h0]
      refine ⟨by simp, by simp, by simp, ?_⟩
      intro v _
      exact List.nil_prefix
    · have hr : retrieveRelevantContent chunks q = rankChunks (queryTerms q) chunks := by
        simp [retrieveRelevantContent, hce, hte]
      rw [hr]
      exact ⟨rankChunks_length_le _ _, rankChunks_mem _ _,
        rankChunks_pairwise _ _, fun v hv => rankChunks_stable _ _ v hv⟩

/-- Witness for `retrieve_top3_properties` at the spec's own example. -/
theorem retrieve_top3_witness :
    (retrieveRelevantContent ["cat cat cat".data, "cat".data, "dog".data]
      "cat".data).length ≤ 3 ∧
    0 < scoreChunk (queryTerms "cat".data) "cat cat cat".data ∧
    "cat cat cat".data ∈ (["cat cat cat".data, "cat".data, "dog".data] : List (List Char)) :=
  ⟨(retrieve_top3_properties ["cat cat cat".data, "cat".data, "dog".data] "cat".data).1,
   ((retrieve_top3_properties ["cat cat cat".data, "cat".data, "dog".data]
      "cat".data).2.1 "cat cat cat".data (by decide)).1,
   ((retrieve_top3_properties ["cat cat cat".data, "cat".data, "dog".data]
      "cat".data).2.1 "cat cat cat".data (by decide)).2⟩

/-! ## C5: idempotent load (corrected) -/

/-- C5 counterexample: a parse that extracts the *empty* string is a
successful load (the text is stored), but JavaScript truthiness makes the
cache check `if (pdfText)` miss it, so a second call re-reads and re-parses:
with the file now parsing to "x", the second call returns "x" instead of the
cached "" and appends to the chunk sequence. -/
theorem load_idempotent_counterexample :
    loadPDF ⟨true, some []⟩ ⟨none, []⟩ = ([], ⟨some [], []⟩) ∧
    loadPDF ⟨true, some ['x']⟩ ⟨some [], []⟩ =
      (['x'], ⟨some ['x'], [['x']]⟩) := by decide

/-- C5 (amended): after a successful load that extracted *non-empty* text,
a second call — whatever the file system now holds — returns the cached text
without touching the state: the chunk sequence is identical and nothing is
re-read or re-parsed. -/
theorem load_idempotent_amended (env env' : LoadEnv) (st : PdfState)
    (t : List Char) (hcached : ((loadPDF env st).2).pdfText = some t)
    (hne : t ≠ []) :
    (loadPDF env st).1 = t ∧
    loadPDF env' (loadPDF env st).2 = (t, (loadPDF env st).2) := by
  have hte : t.isEmpty = false := by
    cases t with
    | nil => exact absurd rfl hne
    | cons a l => rfl
  constructor
  · rcases st with ⟨pt, pc⟩
    cases pt with
    | none =>
        by_cases he : env.pdfExists <;> cases hp : env.parse <;>
          simp_all [loadPDF, loadFresh, he, hp]
    | some u =>
        by_cases hu : u.isEmpty
        · by_cases he : env.pdfExists <;> cases hp : env.parse <;>
            simp_all [loadPDF, loadFresh, he, hp, hu]
        · simp_all [loadPDF, hu]
  · conv_lhs => rw [loadPDF]
    rw [hcached]
    change (if t.isEmpty = true then loadFresh env' (loadPDF env st).2
      else (t, (loadPDF env st).2)) = _
    rw [hte]
    simp

/-- Witness for `load_idempotent_amended`: load "hi", then call again with the
file gone; the cached text and state survive untouched. -/
theorem load_idempotent_witness :
    (loadPDF ⟨true, some "hi".data⟩ ⟨none, []⟩).1 = "hi".data ∧
    loadPDF ⟨false, none⟩ (loadPDF ⟨true, some "hi".data⟩ ⟨none, []⟩).2 =
      ("hi".data, (loadPDF ⟨true, some "hi".data⟩ ⟨none, []⟩).2) :=
  load_idempotent_amended ⟨true, some "hi".data⟩ ⟨false, none⟩ ⟨none, []⟩
    "hi".data (by decide) (by decide)

/-! ## C9: the empty scoring term of a punctuation-only token -/

/-- A single empty scoring term gives every chunk the score `length + 1`
(the empty pattern matches at every position of the lowercased chunk). -/
theorem scoreChunk_empty_term (c : List Char) : scoreChunk [[]] c = c.length + 1 := by
  simp [scoreChunk, countOcc, toLowerL]

/-- C9: for the query "..." — a single raw token of length 3 > 2 made
entirely of stripped punctuation — the only scoring term is the empty string;
every chunk scores the strictly positive `length + 1`, so with a non-empty
chunk sequence the scorer returns the `min 3 n` longest chunks (length
non-increasing, all drawn from the input, and no excluded chunk longer than a
returned one) instead of the empty sequence. -/
theorem retrieve_empty_pattern (chunks : List (List Char)) (hne : chunks ≠ []) :
    queryTerms "...".data = [[]] ∧
    (∀ c ∈ chunks, scoreChunk (queryTerms "...".data) c = c.length + 1) ∧
    retrieveRelevantContent chunks "...".data ≠ [] ∧
    (retrieveRelevantContent chunks "...".data).length = min 3 chunks.length ∧
    List.Pairwise (fun a b => b.length ≤ a.length)
      (retrieveRelevantContent chunks "...".data) ∧
    (∀ c ∈ retrieveRelevantContent chunks "...".data, c ∈ chunks) ∧
    (∀ c ∈ chunks, c ∉ retrieveRelevantContent chunks "...".data →
      ∀ d ∈ retrieveRelevantContent chunks "...".data, c.length ≤ d.length) := by
  have hterms : queryTerms "...".data = [[]] := by decide
  have hce : chunks.isEmpty = false := by
    simpa [List.isEmpty_iff] using hne
  have hr : retrieveRelevantContent chunks "...".data = rankChunks [[]] chunks := by
    simp [retrieveRelevantContent, hce, hterms]
  have hfilter : (chunks.map (fun c => Scored.mk c (scoreChunk [[]] c))).filter
      (fun s => decide (0 < s.score)) =
      chunks.map (fun c => Scored.mk c (scoreChunk [[]] c)) := by
    apply List.filter_eq_self.2
    intro x hx
    rw [List.mem_map] at hx
    obtain ⟨c, _, rfl⟩ := hx
    simp [scoreChunk_empty_term]
  have hlen : (rankChunks [[]] chunks).length = min 3 chunks.length := by
    unfold rankChunks
    rw [List.length_map, List.length_take, hfilter, length_sortDesc, List.length_map]
  refine ⟨hterms, ?_, ?_, ?_, ?_, ?_, ?_⟩
  · intro c _
    rw [hterms, scoreChunk_empty_term]
  · rw [hr, ← List.length_pos, hlen]
    have : 0 < chunks.length := List.length_pos.2 hne
    omega
  · rw [hr, hlen]
  · rw [hr, hterms] at *
    exact (rankChunks_pairwise [[]] chunks).imp (by
      intro a b hab
      rw [scoreChunk_empty_term, scoreChunk_empty_term] at hab
      omega)
  · intro c hc
    rw [hr] at hc
    exact (rankChunks_mem [[]] chunks c hc).2
  · intro c hc hnotin d hd
    rw [hr] at hnotin hd
    set s := sortDesc ((chunks.map (fun c => Scored.mk c (scoreChunk [[]] c))).filter
        (fun x => decide (0 < x.score))) with hs
    have hxc : Scored.mk c (scoreChunk [[]] c) ∈ s := by
      rw [hs, mem_sortDesc, List.mem_filter]
      refine ⟨List.mem_map.2 ⟨c, hc, rfl⟩, ?_⟩
      simp [scoreChunk_empty_term]
    have hsorted := sortDesc_sorted ((chunks.map (fun c => Scored.mk c (scoreChunk [[]] c))).filter
        (fun x => decide (0 < x.score)))
    rw [← hs, ← List.take_append_drop 3 s, List.pairwise_append] at hsorted
    have hxc' : Scored.mk c (scoreChunk [[]] c) ∈ s.take 3 ∨
        Scored.mk c (scoreChunk [[]] c) ∈ s.drop 3 := by
      rw [← List.mem_append, List.take_append_drop]
      exact hxc
    rcases hxc' with h | h
    · exact absurd (List.mem_map.2 ⟨_, h, rfl⟩) (by simpa [rankChunks] using hnotin)
    · unfold rankChunks at hd
      rw [List.mem_map] at hd
      obtain ⟨xd, hxd, rfl⟩ := hd
      have hcross : scoreChunk [[]] c ≤ xd.score := hsorted.2.2 xd hxd _ h
      have hxds := score_eq_of_mem_pipeline [[]] chunks xd (List.mem_of_mem_take hxd)
      rw [hxds, scoreChunk_empty_term, scoreChunk_empty_term] at hcross
      omega

/-- Witness for `retrieve_empty_pattern` on three concrete chunks. -/
theorem retrieve_empty_pattern_witness :
    queryTerms "...".data = [[]] ∧
    retrieveRelevantContent ["hr".data, "benefits page".data, "it desk".data, "x".data]
      "...".data ≠ [] ∧
    (retrieveRelevantContent ["hr".data, "benefits page".data, "it desk".data, "x".data]
      "...".data).length =
      min 3 (["hr".data, "benefits page".data, "it desk".data, "x".data] :
        List (List Char)).length :=
  ⟨(retrieve_empty_pattern ["hr".data, "benefits page".data, "it desk".data, "x".data]
      (by decide)).1,
   (retrieve_empty_pattern ["hr".data, "benefits page".data, "it desk".data, "x".data]
      (by decide)).2.2.1,
   (retrieve_empty_pattern ["hr".data, "benefits page".data, "it desk".data, "x".data]
      (by decide)).2.2.2.1⟩

/-! ## C4: query-term preprocessing (corrected) -/

/-- C4 counterexample: the length filter runs on the raw token, before
punctuation stripping, so the query "a.." produces the single scoring term
"a" of length 1 ≤ 2 — and that term contributes: the chunk "a" is scored
positive and returned. -/
theorem query_term_length_counterexample :
    queryTerms "a..".data = [['a']] ∧
    (['a'] : List Char).length ≤ 2 ∧
    retrieveRelevantContent [['a']] "a..".data = [['a']] := by decide

/-- C4 (amended): every term used in scoring is obtained by
punctuation-stripping a lowercase whitespace token whose *pre-strip* length
exceeds 2 (tokens of raw length ≤ 2 are discarded); the stripped term itself
may be shorter, and contains no character from the punctuation set. -/
theorem query_terms_amended (q : List Char) :
    ∀ t ∈ queryTerms q, ∃ tok, tok ∈ splitWs (toLowerL q) ∧ 2 < tok.length ∧
      t = stripPunct tok ∧ t.length ≤ tok.length ∧
      ∀ c ∈ t, PUNCT.contains c = false := by
  intro t ht
  unfold queryTerms at ht
  rw [List.mem_map] at ht
  obtain ⟨tok, htok, rfl⟩ := ht
  rw [List.mem_filter] at htok
  refine ⟨tok, htok.1, by simpa using htok.2, rfl, List.length_filter_le _ _, ?_⟩
  intro c hc
  unfold stripPunct at hc
  rw [List.mem_filter] at hc
  simpa using hc.2

/-- Witness for `query_terms_amended` at the term "hello" of the query
"Hello!!! there". -/
theorem query_terms_amended_witness :
    ∃ tok, tok ∈ splitWs (toLowerL "Hello!!! there".data) ∧ 2 < tok.length ∧
      "hello".data = stripPunct tok ∧ ("hello".data).length ≤ tok.length ∧
      ∀ c ∈ "hello".data, PUNCT.contains c = false :=
  query_terms_amended "Hello!!! there".data "hello".data (by decide)
